import Mathlib

/- A verification model of `project_structure.py`, a command-line utility
that renders an ASCII tree of a directory into a text file and appends
missing entries to a `.gitignore` file.  Text-file contents are modelled as
`String`s, the file system as an inductive tree, and the program's two
components (`generate_ascii_tree` and `manage_gitignore`) plus `main` as
pure functions over those models. -/

namespace ProjectStructure

/- String utilities mirroring the Python string primitives the script uses. -/

/-- The whitespace characters removed by Python's `str.strip()`
(the ASCII whitespace range). -/
def isWS (c : Char) : Bool :=
  c == ' ' || c == '\t' || c == '\n' || c == '\r' || c == '\x0b' || c == '\x0c'

/-- Model of Python's `str.strip()`. -/
def pyStrip (s : String) : String :=
  String.mk (((s.data.dropWhile isWS).reverse.dropWhile isWS).reverse)

/-- Model of Python's `str.startswith(c)` for a one-character argument. -/
def startsWithChar (c : Char) (s : String) : Bool :=
  match s.data with
  | [] => false
  | a :: _ => a == c

/-- Model of Python's `str.endswith(c)` for a one-character argument. -/
def endsWithChar (c : Char) (s : String) : Bool :=
  match s.data.getLast? with
  | none => false
  | some a => a == c

/-- Lexicographic comparison of character lists by code point, which is how
Python compares strings with `<` (and hence how `sorted` orders them). -/
def charListLt : List Char → List Char → Bool
  | _, [] => false
  | [], _ :: _ => true
  | a :: as, b :: bs =>
    if a.toNat < b.toNat then true
    else if b.toNat < a.toNat then false
    else charListLt as bs

/-- Python's `<` on strings. -/
def strLtB (a b : String) : Bool := charListLt a.data b.data

/-- The total preorder used to model Python's ascending `sorted` on strings. -/
def strLe (a b : String) : Prop := strLtB b a = false

instance : DecidableRel strLe := fun a b => Bool.decEq (strLtB b a) false

/-- Model of Python's `sorted` on a list of strings. -/
def sortStrings (l : List String) : List String := List.insertionSort strLe l

/- The line structure of a text file.  `linesAux` splits character data into
the sequence of lines Python sees when iterating over an open text file,
with the terminating newline of each line removed: a final unterminated
segment is a line of its own, and an empty file has no lines. -/

/-- The first list of lines is an unchanged initial segment of the second:
every line of the first appears in the second, unaltered and at its original
position, followed only by newly appended material. -/
def isInitSegment (l₁ l₂ : List String) : Prop := ∃ t, l₁ ++ t = l₂

/-- Accumulating line splitter over character data. -/
def linesAux : List Char → List Char → List String
  | [], acc => if acc.isEmpty then [] else [String.mk acc.reverse]
  | c :: rest, acc =>
    if c = '\n' then String.mk acc.reverse :: linesAux rest []
    else linesAux rest (c :: acc)

/-- The lines of a file's content. -/
def pyLines (s : String) : List String := linesAux s.data []

/-- Concatenate entries one per line, each followed by a newline, exactly as
the updater's write loop emits them. -/
def joinLines : List String → String
  | [] => ""
  | e :: es => e ++ "\n" ++ joinLines es

theorem linesAux_append_newline (xs : List Char) : ∀ (acc ys : List Char),
    linesAux (xs ++ '\n' :: ys) acc = linesAux (xs ++ ['\n']) acc ++ linesAux ys [] := by
  induction xs with
  | nil =>
      intro acc ys
      show linesAux ('\n' :: ys) acc = linesAux ['\n'] acc ++ linesAux ys []
      rw [linesAux, if_pos rfl, linesAux, if_pos rfl]
      show _ = (String.mk acc.reverse :: linesAux [] []) ++ linesAux ys []
      rw [linesAux]
      simp
  | cons c xs ih =>
      intro acc ys
      rw [List.cons_append, List.cons_append, linesAux, linesAux]
      by_cases hc : c = '\n'
      · rw [if_pos hc, if_pos hc, ih [] ys, List.cons_append]
      · rw [if_neg hc, if_neg hc, ih (c :: acc) ys]

theorem linesAux_initSegment (xs : List Char) : ∀ acc,
    isInitSegment (linesAux xs acc) (linesAux (xs ++ ['\n']) acc) := by
  induction xs with
  | nil =>
      intro acc
      show isInitSegment (linesAux [] acc) (linesAux ['\n'] acc)
      rw [linesAux, linesAux, if_pos rfl, linesAux]
      by_cases h : acc.isEmpty
      · rw [if_pos h]
        exact ⟨_, rfl⟩
      · rw [if_neg h]
        exact ⟨[], by simp⟩
  | cons c xs ih =>
      intro acc
      rw [List.cons_append, linesAux, linesAux]
      by_cases hc : c = '\n'
      · rw [if_pos hc, if_pos hc]
        obtain ⟨t, ht⟩ := ih []
        exact ⟨t, by rw [List.cons_append, ht]⟩
      · rw [if_neg hc, if_neg hc]
        exact ih (c :: acc)

theorem linesAux_single (xs : List Char) (h : '\n' ∉ xs) : ∀ acc,
    linesAux (xs ++ ['\n']) acc = [String.mk (acc.reverse ++ xs)] := by
  induction xs with
  | nil => intro acc; simp [linesAux]
  | cons c xs ih =>
      intro acc
      have hc : c ≠ '\n' := fun hc => h (hc ▸ List.mem_cons_self c xs)
      have h' : '\n' ∉ xs := fun hm => h (List.mem_cons_of_mem c hm)
      simp [linesAux, hc, ih h']

theorem pyLines_join : ∀ es : List String, (∀ e ∈ es, '\n' ∉ e.data) →
    pyLines (joinLines es) = es := by
  intro es
  induction es with
  | nil => intro _; rfl
  | cons e es ih =>
      intro h
      have he : '\n' ∉ e.data := h e (List.mem_cons_self e es)
      show linesAux ((e ++ "\n" ++ joinLines es).data) [] = e :: es
      rw [String.data_append, String.data_append]
      have : ("\n" : String).data = ['\n'] := rfl
      rw [this, List.append_assoc]
      show linesAux (e.data ++ '\n' :: (joinLines es).data) [] = e :: es
      rw [linesAux_append_newline, linesAux_single e.data he]
      have : linesAux (joinLines es).data [] = es := ih fun x hx => h x (List.mem_cons_of_mem e hx)
      simp [this]

theorem pyLines_append_newline (s t : String) :
    pyLines (s ++ "\n" ++ t) = pyLines (s ++ "\n") ++ pyLines t := by
  show linesAux ((s ++ "\n" ++ t).data) [] = linesAux ((s ++ "\n").data) [] ++ linesAux t.data []
  rw [String.data_append, String.data_append]
  have h1 : ("\n" : String).data = ['\n'] := rfl
  rw [h1, List.append_assoc]
  exact linesAux_append_newline s.data [] t.data

theorem pyLines_initSegment_newline (s : String) :
    isInitSegment (pyLines s) (pyLines (s ++ "\n")) := by
  show isInitSegment (linesAux s.data []) (linesAux ((s ++ "\n").data) [])
  rw [String.data_append]
  exact linesAux_initSegment s.data []

/- The Ignore-List Updater (`manage_gitignore`). -/

/-- The membership set `manage_gitignore` builds from an existing ignore
file: a line is kept when its stripped form is nonempty and the raw line
does not start with `#`, and contributes that stripped form. -/
def gitignoreEntrySet (content : String) : List String :=
  (pyLines content).filterMap fun line =>
    if pyStrip line = "" then none
    else if startsWithChar '#' line then none
    else some (pyStrip line)

/-- The entries already present in the (possibly absent) ignore file. -/
def existingEntries : Option String → List String
  | none => []
  | some c => gitignoreEntrySet c

/-- The sorted distinct requested entries that are not already present,
modelling Python's `sorted(set(entries_to_ignore) - existing_entries)`. -/
def newEntriesList (fc : Option String) (entries : List String) : List String :=
  sortStrings ((entries.filter fun e => decide (e ∉ existingEntries fc)).dedup)

/-- Model of `manage_gitignore`.  The first component is the resulting
ignore-file state (`none` when the file still does not exist), the second
the number of entries added (0 corresponds to the "no changes" report).
When something must be added the file is opened in append mode (created
empty if absent), a separating newline is written first when the file was
nonempty, then each new entry on its own line. -/
def manage_gitignore (fc : Option String) (entries : List String) :
    Option String × Nat :=
  let newE := newEntriesList fc entries
  if newE.isEmpty then (fc, 0)
  else
    let base := fc.getD ""
    (some (base ++ (if base = "" then "" else "\n") ++ joinLines newE), newE.length)

theorem mem_newEntriesList {fc : Option String} {entries : List String} {e : String} :
    e ∈ newEntriesList fc entries ↔ e ∈ entries ∧ e ∉ existingEntries fc := by
  unfold newEntriesList sortStrings
  rw [(List.perm_insertionSort strLe _).mem_iff, List.mem_dedup, List.mem_filter]
  simp

theorem manage_gitignore_content (fc : Option String) (entries : List String)
    (hne : (newEntriesList fc entries).isEmpty = false) :
    (manage_gitignore fc entries).1 =
      some ((fc.getD "") ++ (if fc.getD "" = "" then "" else "\n")
        ++ joinLines (newEntriesList fc entries)) := by
  simp only [manage_gitignore, hne, Bool.false_eq_true, if_false]

theorem manage_gitignore_lines (fc : Option String) (entries : List String)
    (hnl : ∀ e ∈ entries, '\n' ∉ e.data)
    (hne : (newEntriesList fc entries).isEmpty = false) :
    pyLines ((manage_gitignore fc entries).1.getD "") =
      pyLines ((fc.getD "") ++ (if fc.getD "" = "" then "" else "\n"))
        ++ newEntriesList fc entries := by
  rw [manage_gitignore_content fc entries hne]
  simp only [Option.getD_some]
  have hjoin : pyLines (joinLines (newEntriesList fc entries)) = newEntriesList fc entries :=
    pyLines_join _ fun e he => hnl e (mem_newEntriesList.mp he).1
  by_cases hb : fc.getD "" = ""
  · rw [hb, if_pos rfl]
    have h1 : ("" : String) ++ "" ++ joinLines (newEntriesList fc entries)
        = joinLines (newEntriesList fc entries) := rfl
    have h2 : pyLines (("" : String) ++ "") = [] := rfl
    rw [h1, h2, hjoin, List.nil_append]
  · rw [if_neg hb, pyLines_append_newline, hjoin]

theorem manage_gitignore_of_isEmpty (fc : Option String) (entries : List String)
    (hE : (newEntriesList fc entries).isEmpty = true) :
    manage_gitignore fc entries = (fc, 0) := by
  simp only [manage_gitignore, hE, if_true]

/-- C1: for every call to `manage_gitignore` with (single-line) entry
strings, every requested entry that was not already present — exact line
match after stripping, ignoring blank lines and comment lines — appears
afterwards as a line of the ignore file, and the lines that existed before
the call form an unchanged initial segment of the new file: no existing
line is altered, removed, or moved from its position. -/
theorem updater_appends_missing_and_preserves_lines (fc : Option String)
    (entries : List String) (hnl : ∀ e ∈ entries, '\n' ∉ e.data) :
    (∀ e ∈ entries, e ∉ existingEntries fc →
        e ∈ pyLines ((manage_gitignore fc entries).1.getD "")) ∧
    isInitSegment (pyLines (fc.getD ""))
      (pyLines ((manage_gitignore fc entries).1.getD "")) := by
  cases hE : (newEntriesList fc entries).isEmpty with
  | true =>
      rw [manage_gitignore_of_isEmpty fc entries hE]
      constructor
      · intro e he hnot
        have hmem : e ∈ newEntriesList fc entries := mem_newEntriesList.mpr ⟨he, hnot⟩
        rw [List.isEmpty_iff.mp hE] at hmem
        cases hmem
      · exact ⟨[], List.append_nil _⟩
  | false =>
      rw [manage_gitignore_lines fc entries hnl hE]
      constructor
      · intro e he hnot
        exact List.mem_append_right _ (mem_newEntriesList.mpr ⟨he, hnot⟩)
      · by_cases hb : fc.getD "" = ""
        · rw [hb]
          exact ⟨_, rfl⟩
        · rw [if_neg hb]
          obtain ⟨t, ht⟩ := pyLines_initSegment_newline (fc.getD "")
          exact ⟨t ++ newEntriesList fc entries, by rw [← List.append_assoc, ht]⟩

theorem updater_appends_witness :
    ("b" ∈ pyLines ((manage_gitignore (some "a\n") ["b"]).1.getD "")) ∧
    isInitSegment (pyLines ((some "a\n" : Option String).getD ""))
      (pyLines ((manage_gitignore (some "a\n") ["b"]).1.getD "")) :=
  ⟨(updater_appends_missing_and_preserves_lines (some "a\n") ["b"] (by decide)).1
      "b" (List.mem_cons_self "b" []) (by decide),
    (updater_appends_missing_and_preserves_lines (some "a\n") ["b"] (by decide)).2⟩

/-- A requested entry in the shape the reader can recognise once written:
nonempty, already stripped, not a comment line, and single-line. -/
def goodEntry (e : String) : Prop :=
  e ≠ "" ∧ pyStrip e = e ∧ startsWithChar '#' e = false ∧ '\n' ∉ e.data

instance (e : String) : Decidable (goodEntry e) := by
  unfold goodEntry; infer_instance

/-- C4 counterexample: with an absent ignore file and the entry set {"#x"},
the first run appends `#x`, but a written line starting with `#` is never
counted as present, so a second identical run appends it again and adds one
entry rather than zero. -/
theorem updater_not_idempotent_on_comment_entry :
    (manage_gitignore (manage_gitignore none ["#x"]).1 ["#x"]).2 ≠ 0 := by decide

theorem pyLines_initSegment_sep (s : String) (t : List String) :
    isInitSegment (pyLines s) (pyLines (s ++ (if s = "" then "" else "\n")) ++ t) := by
  by_cases hb : s = ""
  · subst hb
    exact ⟨_, rfl⟩
  · rw [if_neg hb]
    obtain ⟨u, hu⟩ := pyLines_initSegment_newline s
    exact ⟨u ++ t, by rw [← List.append_assoc, hu]⟩

theorem mem_gitignoreEntrySet_of_existing {fc : Option String} {e : String}
    (h : e ∈ existingEntries fc) : e ∈ gitignoreEntrySet (fc.getD "") := by
  cases fc with
  | none => cases h
  | some c => exact h

/-- C4 (amended): running `manage_gitignore` twice in a row with the same
entry set adds zero entries on the second run, provided every entry is a
nonempty, already-stripped, non-comment, single-line string (entries
outside that shape are re-appended on every run, as the counterexample
shows). -/
theorem updater_idempotent (fc : Option String) (entries : List String)
    (hg : ∀ e ∈ entries, goodEntry e) :
    (manage_gitignore (manage_gitignore fc entries).1 entries).2 = 0 := by
  have hnl : ∀ e ∈ entries, '\n' ∉ e.data := fun e he => (hg e he).2.2.2
  cases hE : (newEntriesList fc entries).isEmpty with
  | true =>
      rw [manage_gitignore_of_isEmpty fc entries hE]
      show (manage_gitignore fc entries).2 = 0
      rw [manage_gitignore_of_isEmpty fc entries hE]
  | false =>
      obtain ⟨c1, hc1⟩ : ∃ c, (manage_gitignore fc entries).1 = some c :=
        ⟨_, manage_gitignore_content fc entries hE⟩
      have hlines : pyLines c1
          = pyLines ((fc.getD "") ++ (if fc.getD "" = "" then "" else "\n"))
            ++ newEntriesList fc entries := by
        have h := manage_gitignore_lines fc entries hnl hE
        rw [hc1] at h
        simpa using h
      have hall : ∀ e ∈ entries, e ∈ existingEntries (some c1) := by
        intro e he
        obtain ⟨hne0, hstrip, hhash, hnl1⟩ := hg e he
        show e ∈ gitignoreEntrySet c1
        by_cases hex : e ∈ existingEntries fc
        · have hex' : e ∈ gitignoreEntrySet (fc.getD "") :=
            mem_gitignoreEntrySet_of_existing hex
          obtain ⟨u, hu⟩ := pyLines_initSegment_sep (fc.getD "") (newEntriesList fc entries)
          unfold gitignoreEntrySet at hex' ⊢
          rw [hlines, ← hu, List.filterMap_append]
          exact List.mem_append_left _ hex'
        · have hmem : e ∈ newEntriesList fc entries := mem_newEntriesList.mpr ⟨he, hex⟩
          unfold gitignoreEntrySet
          rw [hlines]
          refine List.mem_filterMap.mpr ⟨e, List.mem_append_right _ hmem, ?_⟩
          rw [if_neg (by rw [hstrip]; exact hne0), if_neg (by rw [hhash]; simp), hstrip]
      have hnewE2 : newEntriesList (some c1) entries = [] := by
        unfold newEntriesList
        have hfil : (entries.filter fun e => decide (e ∉ existingEntries (some c1))) = [] := by
          rw [List.filter_eq_nil_iff]
          intro a ha
          simp [hall a ha]
        rw [hfil]
        rfl
      rw [hc1]
      have hEmp : (newEntriesList (some c1) entries).isEmpty = true := by
        rw [hnewE2]; rfl
      rw [manage_gitignore_of_isEmpty _ _ hEmp]

theorem updater_idempotent_witness :
    (manage_gitignore (manage_gitignore none ["a"]).1 ["a"]).2 = 0 :=
  updater_idempotent none ["a"] (by decide)

/-- C5: with an ignore file consisting of the line `build/` and the
requested entry set {"build/", "dist/"}, exactly one entry line, `dist/`,
is appended (preceded by the separating blank line the updater writes
before new entries), and the reported count of added entries is 1. -/
theorem updater_example_build_dist :
    manage_gitignore (some "build/\n") ["build/", "dist/"]
        = (some "build/\n\ndist/\n", 1)
      ∧ newEntriesList (some "build/\n") ["build/", "dist/"] = ["dist/"] := by
  constructor <;> decide

/-- C6: when the updater reads an existing ignore file, a string counts as
present exactly when it is the whitespace-stripped form of some line whose
stripped form is nonempty and which does not begin with the comment marker
`#`; blank lines and `#`-comment lines are discarded. -/
theorem updater_membership_set_spec (c s : String) :
    s ∈ existingEntries (some c) ↔
      ∃ line ∈ pyLines c, pyStrip line ≠ "" ∧ startsWithChar '#' line = false
        ∧ s = pyStrip line := by
  show s ∈ gitignoreEntrySet c ↔ _
  unfold gitignoreEntrySet
  rw [List.mem_filterMap]
  constructor
  · rintro ⟨line, hmem, hf⟩
    by_cases h1 : pyStrip line = ""
    · rw [if_pos h1] at hf; cases hf
    · by_cases h2 : startsWithChar '#' line = true
      · rw [if_neg h1, if_pos h2] at hf; cases hf
      · rw [if_neg h1, if_neg h2] at hf
        injection hf with hf
        exact ⟨line, hmem, h1, by simpa using h2, hf.symm⟩
  · rintro ⟨line, hmem, h1, h2, h3⟩
    refine ⟨line, hmem, ?_⟩
    rw [if_neg h1, if_neg (by simp [h2]), h3]

/- Order facts about the code-point comparison, needed to reason about the
sorting the renderer applies to directory listings. -/

theorem char_eq_of_toNat_eq {a b : Char} (h : a.toNat = b.toNat) : a = b :=
  Char.eq_of_val_eq (UInt32.ext h)

theorem charListLt_irrefl : ∀ l, charListLt l l = false := by
  intro l
  induction l with
  | nil => rfl
  | cons a as ih => simp [charListLt, ih]

theorem charListLt_asymm : ∀ l₁ l₂, charListLt l₁ l₂ = true → charListLt l₂ l₁ = false := by
  intro l₁
  induction l₁ with
  | nil =>
      intro l₂ h
      cases l₂ with
      | nil => exact Bool.noConfusion h
      | cons b bs => rfl
  | cons a as ih =>
      intro l₂ h
      cases l₂ with
      | nil => exact Bool.noConfusion h
      | cons b bs =>
          simp only [charListLt] at h ⊢
          by_cases h1 : a.toNat < b.toNat
          · rw [if_neg (by omega : ¬ b.toNat < a.toNat), if_pos h1]
          · by_cases h2 : b.toNat < a.toNat
            · rw [if_neg h1, if_pos h2] at h
              exact Bool.noConfusion h
            · rw [if_neg h1, if_neg h2] at h
              rw [if_neg h2, if_neg h1]
              exact ih bs h

theorem charListLt_trans : ∀ l₁ l₂ l₃, charListLt l₁ l₂ = true →
    charListLt l₂ l₃ = true → charListLt l₁ l₃ = true := by
  intro l₁
  induction l₁ with
  | nil =>
      intro l₂ l₃ h12 h23
      cases l₃ with
      | nil =>
          cases l₂ with
          | nil => exact h12
          | cons b bs => exact Bool.noConfusion h23
      | cons c cs => rfl
  | cons a as ih =>
      intro l₂ l₃ h12 h23
      cases l₂ with
      | nil => exact Bool.noConfusion h12
      | cons b bs =>
          cases l₃ with
          | nil => exact Bool.noConfusion h23
          | cons c cs =>
              simp only [charListLt] at h12 h23 ⊢
              by_cases hab : a.toNat < b.toNat <;> by_cases hbc : b.toNat < c.toNat
              · rw [if_pos (by omega)]
              · by_cases hcb : c.toNat < b.toNat
                · rw [if_neg hbc, if_pos hcb] at h23
                  exact Bool.noConfusion h23
                · rw [if_pos (by omega)]
              · by_cases hba : b.toNat < a.toNat
                · rw [if_neg hab, if_pos hba] at h12
                  exact Bool.noConfusion h12
                · rw [if_pos (by omega)]
              · by_cases hba : b.toNat < a.toNat
                · rw [if_neg hab, if_pos hba] at h12
                  exact Bool.noConfusion h12
                · by_cases hcb : c.toNat < b.toNat
                  · rw [if_neg hbc, if_pos hcb] at h23
                    exact Bool.noConfusion h23
                  · rw [if_neg (by omega : ¬ a.toNat < c.toNat),
                      if_neg (by omega : ¬ c.toNat < a.toNat)]
                    rw [if_neg hab, if_neg hba] at h12
                    rw [if_neg hbc, if_neg hcb] at h23
                    exact ih bs cs h12 h23

theorem charListLt_eq_or_gt : ∀ l₁ l₂, charListLt l₁ l₂ = false →
    l₁ = l₂ ∨ charListLt l₂ l₁ = true := by
  intro l₁
  induction l₁ with
  | nil =>
      intro l₂ h
      cases l₂ with
      | nil => exact Or.inl rfl
      | cons b bs => exact Bool.noConfusion h
  | cons a as ih =>
      intro l₂ h
      cases l₂ with
      | nil => exact Or.inr rfl
      | cons b bs =>
          simp only [charListLt] at h
          by_cases hab : a.toNat < b.toNat
          · rw [if_pos hab] at h
            exact Bool.noConfusion h
          · by_cases hba : b.toNat < a.toNat
            · refine Or.inr ?_
              simp only [charListLt]
              rw [if_pos hba]
            · rw [if_neg hab, if_neg hba] at h
              rcases ih bs h with heq | hgt
              · exact Or.inl (by rw [char_eq_of_toNat_eq (by omega : a.toNat = b.toNat), heq])
              · refine Or.inr ?_
                simp only [charListLt]
                rw [if_neg hba, if_neg hab]
                exact hgt

theorem strLtB_asymm {a b : String} (h : strLtB a b = true) : strLtB b a = false :=
  charListLt_asymm _ _ h

theorem strLtB_trans {a b c : String} (h1 : strLtB a b = true) (h2 : strLtB b c = true) :
    strLtB a c = true :=
  charListLt_trans _ _ _ h1 h2

theorem strLtB_eq_or_gt {a b : String} (h : strLtB a b = false) :
    a = b ∨ strLtB b a = true := by
  rcases charListLt_eq_or_gt a.data b.data h with heq | hgt
  · exact Or.inl (congrArg String.mk heq)
  · exact Or.inr hgt

/- The file-system model for the Tree Renderer.  A directory entry is a
regular file, a listable directory with its children, a directory whose
listing raises PermissionError, or something that is neither a directory
nor a regular file (for example a broken symbolic link). -/

inductive FS where
  | file : String → FS
  | dir : String → List FS → FS
  | deniedDir : String → FS
  | other : String → FS

def fsName : FS → String
  | FS.file n => n
  | FS.dir n _ => n
  | FS.deniedDir n => n
  | FS.other n => n

/-- Model of `os.path.isdir` on an entry (a permission-denied directory is
still a directory). -/
def isDirB : FS → Bool
  | FS.dir _ _ => true
  | FS.deniedDir _ => true
  | _ => false

/-- Model of `os.path.isfile` on an entry. -/
def isFileB : FS → Bool
  | FS.file _ => true
  | _ => false

/-- The hidden-entry filter: a name is dropped when it starts with `.` and
is not exactly `.gitignore`. -/
def hiddenDropped (n : String) : Bool := startsWithChar '.' n && n != ".gitignore"

/-- The per-entry filter of the renderer: hidden names (except `.gitignore`)
are dropped, directory entries with a name in the excluded-directories set
are dropped, file entries with a name in the excluded-files set are
dropped. -/
def keepEntry (exD exF : List String) (e : FS) : Bool :=
  if hiddenDropped (fsName e) then false
  else if isDirB e && decide (fsName e ∈ exD) then false
  else if isFileB e && decide (fsName e ∈ exF) then false
  else true

/-- Ordering of entries by name, modelling `sorted(os.listdir(...))`. -/
def fsLe (a b : FS) : Prop := strLtB (fsName b) (fsName a) = false

instance : DecidableRel fsLe := fun a b => Bool.decEq (strLtB (fsName b) (fsName a)) false

instance : IsTotal FS fsLe :=
  ⟨fun a b => by
    unfold fsLe
    cases h : strLtB (fsName b) (fsName a)
    · exact Or.inl rfl
    · exact Or.inr (strLtB_asymm h)⟩

instance : IsTrans FS fsLe :=
  ⟨fun a b c hab hbc => by
    unfold fsLe at hab hbc ⊢
    cases h : strLtB (fsName c) (fsName a)
    · rfl
    · rcases strLtB_eq_or_gt hab with heq | hgt
      · rw [heq] at hbc
        rw [hbc] at h
        exact Bool.noConfusion h
      · rw [strLtB_trans h hgt] at hbc
        exact Bool.noConfusion hbc⟩

/-- A directory listing in the order the renderer traverses it. -/
def sortFS (l : List FS) : List FS := List.insertionSort fsLe l

theorem sizeOf_filter_le {α : Type} [SizeOf α] (p : α → Bool) :
    ∀ l : List α, sizeOf (l.filter p) ≤ sizeOf l := by
  intro l
  induction l with
  | nil => simp
  | cons a l ih =>
      rw [List.filter_cons]
      by_cases h : p a = true
      · rw [if_pos h]
        simp only [List.cons.sizeOf_spec]
        omega
      · rw [if_neg h]
        simp only [List.cons.sizeOf_spec]
        omega

theorem sizeOf_orderedInsert {α : Type} [SizeOf α] (r : α → α → Prop) [DecidableRel r]
    (a : α) : ∀ l : List α, sizeOf (l.orderedInsert r a) = sizeOf (a :: l) := by
  intro l
  induction l with
  | nil => rfl
  | cons b l ih =>
      rw [List.orderedInsert]
      by_cases h : r a b
      · rw [if_pos h]
      · rw [if_neg h]
        simp only [List.cons.sizeOf_spec, ih]
        omega

theorem sizeOf_insertionSort {α : Type} [SizeOf α] (r : α → α → Prop) [DecidableRel r] :
    ∀ l : List α, sizeOf (l.insertionSort r) = sizeOf l := by
  intro l
  induction l with
  | nil => rfl
  | cons a l ih =>
      rw [List.insertionSort, sizeOf_orderedInsert]
      simp only [List.cons.sizeOf_spec, ih]

theorem sizeOf_sortFS (l : List FS) : sizeOf (sortFS l) = sizeOf l :=
  sizeOf_insertionSort fsLe l

mutual

/-- One recursive call `tree(path, prefix)` of the renderer for the entry at
that path: a directory whose listing raises PermissionError produces the
single placeholder line under the current prefix and nothing else; a
listable directory sorts its children by name, filters them, and renders
them; an entry that is not a directory produces no lines (the renderer
never recurses into it). -/
def treeLines (exD exF : List String) : FS → String → List String
  | FS.deniedDir _, pre => [pre ++ "└── [Permission Denied]"]
  | FS.dir _ ch, pre =>
      renderChildren exD exF pre ((sortFS ch).filter (keepEntry exD exF))
  | _, _ => []
termination_by e _ => sizeOf e
decreasing_by
  have h1 := sizeOf_filter_le (keepEntry exD exF) (sortFS ch)
  have h2 := sizeOf_sortFS ch
  simp only [FS.dir.sizeOf_spec]
  omega

/-- The renderer's loop over the filtered entries of one directory: each
entry gets one connector line (the branch connector while further entries
follow, the corner connector for the last) and, when the entry is a
directory, its recursively rendered contents under the prefix extended by a
continuation segment (or a blank segment after the last entry). -/
def renderChildren (exD exF : List String) (pre : String) : List FS → List String
  | [] => []
  | e :: rest =>
      (pre ++ (if rest.isEmpty then "└── " else "├── ") ++ fsName e)
        :: (treeLines exD exF e (pre ++ (if rest.isEmpty then "    " else "│   "))
            ++ renderChildren exD exF pre rest)
termination_by l => sizeOf l
decreasing_by
  · simp only [List.cons.sizeOf_spec]
    omega
  · simp only [List.cons.sizeOf_spec]
    omega

end

/-- Model of `generate_ascii_tree`: the sequence of lines written to the
output file - the root display name followed by the path separator, then
the recursive rendering of the root directory with an empty prefix. -/
def generate_ascii_tree (exD exF : List String) (rootName : String) (root : FS) :
    List String :=
  (rootName ++ "/") :: treeLines exD exF root ""


mutual

/-- The number of non-excluded, non-hidden entries reachable by recursively
listing a directory with the given listing: each entry surviving the filter
counts one, and the contents of surviving listable directories are counted
recursively (contents of excluded, hidden, or permission-denied directories
are not reached by the traversal). -/
def visibleCountList (exD exF : List String) : List FS → Nat
  | [] => 0
  | e :: l =>
      (if keepEntry exD exF e then 1 + visibleCountInside exD exF e else 0)
        + visibleCountList exD exF l
termination_by l => sizeOf l

/-- The number of such reachable entries strictly inside one entry. -/
def visibleCountInside (exD exF : List String) : FS → Nat
  | FS.dir _ ch => visibleCountList exD exF ch
  | _ => 0
termination_by e => sizeOf e

end

mutual

/-- The number of permission-denied placeholder lines the traversal of a
listing produces: one for each surviving directory entry whose listing is
denied, recursively. -/
def deniedCountList (exD exF : List String) : List FS → Nat
  | [] => 0
  | e :: l =>
      (if keepEntry exD exF e then deniedCountInside exD exF e else 0)
        + deniedCountList exD exF l
termination_by l => sizeOf l

/-- The number of such placeholder lines produced at or inside one entry. -/
def deniedCountInside (exD exF : List String) : FS → Nat
  | FS.dir _ ch => deniedCountList exD exF ch
  | FS.deniedDir _ => 1
  | _ => 0
termination_by e => sizeOf e

end

/-- The number of output lines one surviving entry contributes: its own
connector line plus the lines of its rendered contents. -/
def renderWeight (exD exF : List String) (e : FS) : Nat :=
  1 + visibleCountInside exD exF e + deniedCountInside exD exF e

theorem sum_renderWeight_filter (exD exF : List String) : ∀ l : List FS,
    ((l.filter (keepEntry exD exF)).map (renderWeight exD exF)).sum
      = visibleCountList exD exF l + deniedCountList exD exF l := by
  intro l
  induction l with
  | nil => simp [visibleCountList, deniedCountList]
  | cons e l ih =>
      rw [List.filter_cons]
      by_cases h : keepEntry exD exF e = true
      · rw [if_pos h]
        simp only [List.map_cons, List.sum_cons, ih, renderWeight]
        simp only [visibleCountList, deniedCountList, if_pos h]
        omega
      · rw [if_neg h]
        simp only [visibleCountList, deniedCountList, if_neg h, ih]
        omega

theorem renderChildren_length (exD exF : List String) : ∀ (M : List FS) (pre : String),
    (renderChildren exD exF pre M).length = (M.map (renderWeight exD exF)).sum := by
  have key : ∀ n, ∀ M : List FS, sizeOf M ≤ n → ∀ pre,
      (renderChildren exD exF pre M).length = (M.map (renderWeight exD exF)).sum := by
    intro n
    induction n with
    | zero =>
        intro M hM
        cases M with
        | nil => intro pre; simp [renderChildren]
        | cons e rest =>
            simp only [List.cons.sizeOf_spec] at hM
            omega
    | succ n ih =>
        intro M hM pre
        cases M with
        | nil => simp [renderChildren]
        | cons e rest =>
            simp only [List.cons.sizeOf_spec] at hM
            simp only [renderChildren]
            rw [List.length_cons, List.length_append]
            have hrest : (renderChildren exD exF pre rest).length
                = (rest.map (renderWeight exD exF)).sum := ih rest (by omega) pre
            have hsub : (treeLines exD exF e
                (pre ++ (if rest.isEmpty then "    " else "│   "))).length
                = visibleCountInside exD exF e + deniedCountInside exD exF e := by
              cases e with
              | file nm => simp [treeLines, visibleCountInside, deniedCountInside]
              | other nm => simp [treeLines, visibleCountInside, deniedCountInside]
              | deniedDir nm => simp [treeLines, visibleCountInside, deniedCountInside]
              | dir nm ch =>
                  simp only [treeLines]
                  have hsz : sizeOf ((sortFS ch).filter (keepEntry exD exF)) ≤ n := by
                    have h1 := sizeOf_filter_le (keepEntry exD exF) (sortFS ch)
                    have h2 := sizeOf_sortFS ch
                    simp only [FS.dir.sizeOf_spec] at hM
                    omega
                  rw [ih _ hsz _]
                  have hperm : ((sortFS ch).filter (keepEntry exD exF)).Perm
                      (ch.filter (keepEntry exD exF)) :=
                    (List.perm_insertionSort fsLe ch).filter _
                  rw [(hperm.map (renderWeight exD exF)).sum_eq, sum_renderWeight_filter]
                  simp [visibleCountInside, deniedCountInside]
            rw [hrest, hsub, List.map_cons, List.sum_cons, renderWeight]
            omega
  intro M pre
  exact key (sizeOf M) M (Nat.le_refl _) pre

theorem treeLines_length (exD exF : List String) (root : FS) (pre : String) :
    (treeLines exD exF root pre).length
      = visibleCountInside exD exF root + deniedCountInside exD exF root := by
  cases root with
  | file nm => simp [treeLines, visibleCountInside, deniedCountInside]
  | other nm => simp [treeLines, visibleCountInside, deniedCountInside]
  | deniedDir nm => simp [treeLines, visibleCountInside, deniedCountInside]
  | dir nm ch =>
      simp only [treeLines]
      rw [renderChildren_length]
      have hperm : ((sortFS ch).filter (keepEntry exD exF)).Perm
          (ch.filter (keepEntry exD exF)) :=
        (List.perm_insertionSort fsLe ch).filter _
      rw [(hperm.map (renderWeight exD exF)).sum_eq, sum_renderWeight_filter]
      simp [visibleCountInside, deniedCountInside]

/-- C2 counterexample: in the tree whose root contains a single
permission-denied directory `s`, exactly one non-excluded, non-hidden entry
is reachable by the recursive listing (the directory `s` itself), but the
renderer emits two lines below the root line - the entry line for `s` and
the placeholder line - so the rendered line count differs from the
reachable-entry count. -/
theorem renderer_line_count_cex :
    (treeLines [] [] (FS.dir "r" [FS.deniedDir "s"]) "").length
      ≠ visibleCountInside [] [] (FS.dir "r" [FS.deniedDir "s"]) := by
  simp [treeLines, renderChildren, sortFS, List.insertionSort, List.orderedInsert,
    keepEntry, hiddenDropped, fsName, startsWithChar, isDirB, isFileB,
    visibleCountInside, visibleCountList]

/-- C2 (amended): for every directory tree, the number of lines produced by
`generate_ascii_tree` excluding the first root line - equivalently the
length of the recursive rendering - equals the number of non-excluded,
non-hidden entries reachable by recursively listing the root, plus one
placeholder line for each permission-denied directory listing the traversal
reaches; in particular the counts agree exactly when no listing is
denied. -/
theorem renderer_line_count (exD exF : List String) (rootName : String)
    (root : FS) (pre : String) :
    (generate_ascii_tree exD exF rootName root).length
        = 1 + (visibleCountInside exD exF root + deniedCountInside exD exF root)
      ∧ (treeLines exD exF root pre).length
        = visibleCountInside exD exF root + deniedCountInside exD exF root := by
  constructor
  · show (((rootName ++ "/") :: treeLines exD exF root "").length) = _
    rw [List.length_cons, treeLines_length]
    omega
  · exact treeLines_length exD exF root pre

theorem renderChildren_decomp (exD exF : List String) :
    ∀ (init : List FS) (lastE : FS) (pre : String),
    renderChildren exD exF pre (init ++ [lastE])
      = (init.map fun e => (pre ++ "├── " ++ fsName e)
            :: treeLines exD exF e (pre ++ "│   ")).flatten
        ++ ((pre ++ "└── " ++ fsName lastE) :: treeLines exD exF lastE (pre ++ "    ")) := by
  intro init
  induction init with
  | nil =>
      intro lastE pre
      simp [renderChildren]
  | cons e init ih =>
      intro lastE pre
      rw [List.cons_append]
      simp only [renderChildren]
      have hne : (init ++ [lastE]).isEmpty = false := by
        cases init <;> rfl
      rw [hne]
      simp only [Bool.false_eq_true, if_false]
      rw [ih lastE pre]
      simp [List.append_assoc]

/-- C3: at every directory level, writing the filtered sorted entry list as
init ++ [last], each entry of `init` is rendered with the branch connector
and `last` with the corner connector, each followed by its own rendered
contents; since the connector assignment is computed on the filtered list,
an entry excluded by name (a directory in the excluded set, wherever it
sorts - including last place) leaves no gap, and the corner connector goes
to the last surviving sibling. -/
theorem renderer_connectors (exD exF : List String) (nm : String) (ch : List FS)
    (pre : String) (init : List FS) (lastE : FS)
    (h : (sortFS ch).filter (keepEntry exD exF) = init ++ [lastE]) :
    treeLines exD exF (FS.dir nm ch) pre
      = (init.map fun e => (pre ++ "├── " ++ fsName e)
            :: treeLines exD exF e (pre ++ "│   ")).flatten
        ++ ((pre ++ "└── " ++ fsName lastE) :: treeLines exD exF lastE (pre ++ "    ")) := by
  simp only [treeLines]
  rw [h, renderChildren_decomp]

theorem renderer_connectors_witness :
    treeLines ["zz"] [] (FS.dir "r" [FS.file "a.txt", FS.dir "zz" [], FS.file "mm.txt"]) ""
      = ["├── a.txt", "└── mm.txt"] := by
  have h := renderer_connectors ["zz"] [] "r"
      [FS.file "a.txt", FS.dir "zz" [], FS.file "mm.txt"]
      "" [FS.file "a.txt"] (FS.file "mm.txt") (by rfl)
  simpa [treeLines] using h

/-- C9: when listing a directory raises PermissionError, the renderer emits
exactly one placeholder line noting the denial under the current prefix and
does not recurse below that directory, and the loop continues with the
remaining entries exactly as it would otherwise. -/
theorem renderer_permission_denied (exD exF : List String) (pre nm : String)
    (rest : List FS) :
    treeLines exD exF (FS.deniedDir nm) pre = [pre ++ "└── [Permission Denied]"]
    ∧ renderChildren exD exF pre (FS.deniedDir nm :: rest)
        = (pre ++ (if rest.isEmpty then "└── " else "├── ") ++ nm)
          :: ((pre ++ (if rest.isEmpty then "    " else "│   ")) ++ "└── [Permission Denied]")
          :: renderChildren exD exF pre rest := by
  constructor
  · simp [treeLines]
  · simp [renderChildren, treeLines, fsName]

theorem mem_renderChildren_of_mem (exD exF : List String) :
    ∀ (M : List FS) (pre : String) (e : FS), e ∈ M →
    (pre ++ "├── " ++ fsName e) ∈ renderChildren exD exF pre M
      ∨ (pre ++ "└── " ++ fsName e) ∈ renderChildren exD exF pre M := by
  intro M
  induction M with
  | nil =>
      intro pre e he
      cases he
  | cons x rest ih =>
      intro pre e he
      simp only [renderChildren]
      rcases List.mem_cons.mp he with heq | hmem
      · subst heq
        cases hr : rest.isEmpty
        · left
          simp
        · right
          simp
      · rcases ih pre e hmem with h | h
        · exact Or.inl (List.mem_cons_of_mem _ (List.mem_append_right _ h))
        · exact Or.inr (List.mem_cons_of_mem _ (List.mem_append_right _ h))

/-- C10: exclusion filtering is type-gated - a name in the
excluded-directories set only drops an entry that is a directory on disk,
and a name in the excluded-files set only drops a regular file - so a
non-hidden entry that is neither a directory nor a regular file (for
example a broken symbolic link) survives both exclusion sets, a regular
file bearing an excluded-directory name survives, and every surviving
entry of a listing appears in the rendered tree with its connector line. -/
theorem renderer_exclusion_type_gated (exD exF : List String) (nm rootN : String)
    (ch : List FS) (pre : String) (e : FS) :
    (hiddenDropped nm = false → keepEntry exD exF (FS.other nm) = true)
    ∧ (hiddenDropped nm = false → nm ∉ exF → keepEntry exD exF (FS.file nm) = true)
    ∧ (e ∈ ch → keepEntry exD exF e = true →
        (pre ++ "├── " ++ fsName e) ∈ treeLines exD exF (FS.dir rootN ch) pre
          ∨ (pre ++ "└── " ++ fsName e) ∈ treeLines exD exF (FS.dir rootN ch) pre) := by
  refine ⟨?_, ?_, ?_⟩
  · intro h
    simp [keepEntry, fsName, isDirB, isFileB, h]
  · intro h hf
    simp [keepEntry, fsName, isDirB, isFileB, h, hf]
  · intro hmem hkeep
    have h1 : e ∈ sortFS ch := (List.perm_insertionSort fsLe ch).mem_iff.mpr hmem
    have h2 : e ∈ (sortFS ch).filter (keepEntry exD exF) :=
      List.mem_filter.mpr ⟨h1, hkeep⟩
    simpa only [treeLines] using mem_renderChildren_of_mem exD exF _ pre e h2

theorem renderer_exclusion_type_gated_witness :
    keepEntry ["build"] [] (FS.other "build") = true
    ∧ keepEntry ["build"] [] (FS.file "build") = true
    ∧ (("" ++ "├── " ++ fsName (FS.file "build"))
          ∈ treeLines ["build"] [] (FS.dir "r" [FS.file "build", FS.other "x"]) ""
        ∨ ("" ++ "└── " ++ fsName (FS.file "build"))
          ∈ treeLines ["build"] [] (FS.dir "r" [FS.file "build", FS.other "x"]) "") := by
  have h := renderer_exclusion_type_gated ["build"] [] "build" "r"
      [FS.file "build", FS.other "x"] "" (FS.file "build")
  exact ⟨h.1 rfl, h.2.1 rfl (List.not_mem_nil _), 
    h.2.2 (List.mem_cons_self _ _) (h.2.1 rfl (List.not_mem_nil _))⟩

mutual

/-- The same file tree with every hidden entry other than `.gitignore`
removed from every directory listing. -/
def pruneHidden : FS → FS
  | FS.dir n ch => FS.dir n (pruneHiddenList ch)
  | e => e
termination_by e => sizeOf e

/-- Removal of hidden entries from one listing. -/
def pruneHiddenList : List FS → List FS
  | [] => []
  | e :: l =>
      if hiddenDropped (fsName e) then pruneHiddenList l
      else pruneHidden e :: pruneHiddenList l
termination_by l => sizeOf l

end

theorem fsName_pruneHidden (e : FS) : fsName (pruneHidden e) = fsName e := by
  cases e <;> simp [pruneHidden, fsName]

theorem isDirB_pruneHidden (e : FS) : isDirB (pruneHidden e) = isDirB e := by
  cases e <;> simp [pruneHidden, isDirB]

theorem isFileB_pruneHidden (e : FS) : isFileB (pruneHidden e) = isFileB e := by
  cases e <;> simp [pruneHidden, isFileB]

theorem keepEntry_pruneHidden (exD exF : List String) (e : FS) :
    keepEntry exD exF (pruneHidden e) = keepEntry exD exF e := by
  unfold keepEntry
  rw [fsName_pruneHidden, isDirB_pruneHidden, isFileB_pruneHidden]

theorem pruneHiddenList_eq : ∀ l : List FS,
    pruneHiddenList l
      = (l.filter fun e => !hiddenDropped (fsName e)).map pruneHidden := by
  intro l
  induction l with
  | nil => simp [pruneHiddenList]
  | cons e l ih =>
      rw [List.filter_cons]
      by_cases h : hiddenDropped (fsName e) = true
      · simp only [pruneHiddenList, if_pos h, ih, h]
        simp
      · have h' : (!hiddenDropped (fsName e)) = true := by
          simp [Bool.not_eq_true'] at h ⊢
          exact h
        simp only [pruneHiddenList, if_neg h, ih, h']
        simp

theorem orderedInsert_map_pruneHidden (a : FS) : ∀ l : List FS,
    List.orderedInsert fsLe (pruneHidden a) (l.map pruneHidden)
      = (List.orderedInsert fsLe a l).map pruneHidden := by
  intro l
  induction l with
  | nil => rfl
  | cons b l ih =>
      simp only [List.map_cons, List.orderedInsert]
      by_cases h : fsLe a b
      · have h' : fsLe (pruneHidden a) (pruneHidden b) := by
          unfold fsLe at h ⊢
          rw [fsName_pruneHidden, fsName_pruneHidden]
          exact h
        rw [if_pos h, if_pos h']
        simp
      · have h' : ¬ fsLe (pruneHidden a) (pruneHidden b) := by
          unfold fsLe at h ⊢
          rw [fsName_pruneHidden, fsName_pruneHidden]
          exact h
        rw [if_neg h, if_neg h']
        simp only [List.map_cons, ih]

theorem sortFS_map_pruneHidden : ∀ l : List FS,
    sortFS (l.map pruneHidden) = (sortFS l).map pruneHidden := by
  intro l
  induction l with
  | nil => rfl
  | cons a l ih =>
      show List.orderedInsert fsLe (pruneHidden a) (sortFS (l.map pruneHidden))
        = (List.orderedInsert fsLe a (sortFS l)).map pruneHidden
      rw [ih, orderedInsert_map_pruneHidden]

theorem fsLe_refl (a : FS) : fsLe a a := charListLt_irrefl _

theorem orderedInsert_all_le {x : FS} : ∀ {M : List FS}, (∀ y ∈ M, fsLe x y) →
    List.orderedInsert fsLe x M = x :: M := by
  intro M h
  cases M with
  | nil => rfl
  | cons b l =>
      have hb : fsLe x b := h b (List.mem_cons_self b l)
      simp only [List.orderedInsert, if_pos hb]

theorem filter_orderedInsert_drop (p : FS → Bool) (x : FS) (hp : p x = false) :
    ∀ M : List FS, (List.orderedInsert fsLe x M).filter p = M.filter p := by
  intro M
  induction M with
  | nil => simp [List.orderedInsert, List.filter_cons, hp]
  | cons b l ih =>
      simp only [List.orderedInsert]
      by_cases h : fsLe x b
      · rw [if_pos h, List.filter_cons, if_neg (by simp [hp])]
      · rw [if_neg h, List.filter_cons, List.filter_cons, ih]

theorem filter_orderedInsert_keep (p : FS → Bool) (x : FS) (hp : p x = true) :
    ∀ M : List FS, M.Pairwise fsLe →
    (List.orderedInsert fsLe x M).filter p
      = List.orderedInsert fsLe x (M.filter p) := by
  intro M
  induction M with
  | nil =>
      intro _
      simp [List.orderedInsert, List.filter_cons, hp]
  | cons b l ih =>
      intro hs
      have hbl : ∀ y ∈ l, fsLe b y := (List.pairwise_cons.mp hs).1
      have hsl : l.Pairwise fsLe := (List.pairwise_cons.mp hs).2
      simp only [List.orderedInsert]
      by_cases h : fsLe x b
      · rw [if_pos h, List.filter_cons, if_pos hp]
        have hall : ∀ y ∈ (b :: l).filter p, fsLe x y := by
          intro y hy
          have hy' : y ∈ b :: l := List.mem_of_mem_filter hy
          rcases List.mem_cons.mp hy' with rfl | hyl
          · exact h
          · exact IsTrans.trans x b y h (hbl y hyl)
        rw [orderedInsert_all_le hall]
      · rw [if_neg h, List.filter_cons, List.filter_cons]
        by_cases hb : p b = true
        · rw [if_pos hb, if_pos hb]
          simp only [List.orderedInsert, if_neg h]
          rw [ih hsl]
        · rw [if_neg hb, if_neg hb]
          exact ih hsl

theorem sorted_sortFS (l : List FS) : (sortFS l).Pairwise fsLe :=
  List.sorted_insertionSort fsLe l

theorem sortFS_cons (e : FS) (l : List FS) :
    sortFS (e :: l) = List.orderedInsert fsLe e (sortFS l) := rfl

theorem filter_sortFS_filter (keep q : FS → Bool)
    (himp : ∀ e, keep e = true → q e = true) :
    ∀ l : List FS, (sortFS (l.filter q)).filter keep = (sortFS l).filter keep := by
  intro l
  induction l with
  | nil => rfl
  | cons e l ih =>
      rw [List.filter_cons, sortFS_cons]
      by_cases hq : q e = true
      · rw [if_pos hq, sortFS_cons]
        by_cases hk : keep e = true
        · rw [filter_orderedInsert_keep keep e hk _ (sorted_sortFS _),
            filter_orderedInsert_keep keep e hk _ (sorted_sortFS _), ih]
        · have hk' : keep e = false := by
            cases hkeep : keep e
            · rfl
            · exact absurd hkeep hk
          rw [filter_orderedInsert_drop keep e hk',
            filter_orderedInsert_drop keep e hk', ih]
      · have hk' : keep e = false := by
          cases hkeep : keep e
          · rfl
          · exact absurd (himp e hkeep) hq
        rw [if_neg hq, ih, filter_orderedInsert_drop keep e hk']

theorem filter_keep_map_pruneHidden (exD exF : List String) : ∀ l : List FS,
    (l.map pruneHidden).filter (keepEntry exD exF)
      = (l.filter (keepEntry exD exF)).map pruneHidden := by
  intro l
  induction l with
  | nil => rfl
  | cons e l ih =>
      simp only [List.map_cons, List.filter_cons, keepEntry_pruneHidden]
      by_cases h : keepEntry exD exF e = true
      · rw [if_pos h, if_pos h, List.map_cons, ih]
      · rw [if_neg h, if_neg h, ih]

theorem keepEntry_notHidden (exD exF : List String) (e : FS)
    (h : keepEntry exD exF e = true) : (!hiddenDropped (fsName e)) = true := by
  cases hh : hiddenDropped (fsName e)
  · rfl
  · unfold keepEntry at h
    rw [if_pos hh] at h
    exact Bool.noConfusion h

theorem prune_invariance (exD exF : List String) : ∀ n : Nat,
    (∀ e : FS, sizeOf e ≤ n → ∀ pre,
        treeLines exD exF (pruneHidden e) pre = treeLines exD exF e pre)
    ∧ (∀ M : List FS, sizeOf M ≤ n → ∀ pre,
        renderChildren exD exF pre (M.map pruneHidden)
          = renderChildren exD exF pre M) := by
  intro n
  induction n with
  | zero =>
      constructor
      · intro e hsz pre
        cases e with
        | file nm => simp [pruneHidden]
        | other nm => simp [pruneHidden]
        | deniedDir nm => simp [pruneHidden]
        | dir nm ch =>
            simp only [FS.dir.sizeOf_spec] at hsz
            omega
      · intro M hsz pre
        cases M with
        | nil => simp
        | cons e rest =>
            simp only [List.cons.sizeOf_spec] at hsz
            omega
  | succ n ih =>
      obtain ⟨ih1, ih2⟩ := ih
      constructor
      · intro e hsz pre
        cases e with
        | file nm => simp [pruneHidden]
        | other nm => simp [pruneHidden]
        | deniedDir nm => simp [pruneHidden]
        | dir nm ch =>
            simp only [FS.dir.sizeOf_spec] at hsz
            simp only [pruneHidden, treeLines]
            rw [pruneHiddenList_eq, sortFS_map_pruneHidden, filter_keep_map_pruneHidden,
              filter_sortFS_filter (keepEntry exD exF) (fun e => !hiddenDropped (fsName e))
                (keepEntry_notHidden exD exF) ch]
            apply ih2
            have h1 := sizeOf_filter_le (keepEntry exD exF) (sortFS ch)
            have h2 := sizeOf_sortFS ch
            omega
      · intro M hsz pre
        cases M with
        | nil => simp
        | cons e rest =>
            simp only [List.cons.sizeOf_spec] at hsz
            simp only [List.map_cons, renderChildren]
            have hie : (rest.map pruneHidden).isEmpty = rest.isEmpty := by
              cases rest <;> rfl
            rw [hie, fsName_pruneHidden,
              ih1 e (by omega) (pre ++ (if rest.isEmpty then "    " else "│   ")),
              ih2 rest (by omega) pre]

/-- C7: an entry whose name begins with `.` and is not exactly `.gitignore`
never appears in the rendered tree, even if present on disk: removing all
such entries from the tree at every level leaves the rendered output
unchanged; the hidden-entry filter never drops an entry (of any kind) named
exactly `.gitignore`; and no entry that the filter keeps has a hidden
name. -/
theorem renderer_hides_hidden_entries (exD exF : List String) (root : FS)
    (pre : String) (e : FS) :
    treeLines exD exF (pruneHidden root) pre = treeLines exD exF root pre
    ∧ hiddenDropped ".gitignore" = false
    ∧ (keepEntry exD exF e && hiddenDropped (fsName e)) = false := by
  refine ⟨(prune_invariance exD exF (sizeOf root)).1 root (Nat.le_refl _) pre,
    by decide, ?_⟩
  cases hh : hiddenDropped (fsName e)
  · simp
  · have hk : keepEntry exD exF e = false := by
      unfold keepEntry
      rw [if_pos hh]
    rw [hk]
    rfl

/- The entry point `main`. -/

/-- The observable events of one run of `main`: messages printed to
standard output, the write of the output file (with its lines), and the
write of the ignore file (with its resulting content). -/
inductive MainEvent where
  | printed : String → MainEvent
  | wroteOutputFile : List String → MainEvent
  | wroteGitignore : String → MainEvent

/-- The baseline exclusion set `common_exclusions` of `main`. -/
def common_exclusions : List String :=
  ["node_modules", "venv", "__pycache__", ".env", ".DS_Store", "build", "dist",
    "*.egg-info", ".vscode", ".idea", ".pytest_cache", "coverage", "logs", "temp"]

/-- The ignore entry `main` derives from one exclusion name: a name with a
wildcard character is added as it is; a name already ending in the path
separator is added as it is; a name from the baseline list gets the
separator appended (assumed to be a directory); anything else is added as
it is. -/
def ignoreEntryFor (exclusion : String) : String :=
  if decide ('*' ∈ exclusion.data) || decide ('?' ∈ exclusion.data)
      || decide ('[' ∈ exclusion.data) then exclusion
  else if endsWithChar '/' exclusion then exclusion
  else if decide (exclusion ∈ common_exclusions) then exclusion ++ "/"
  else exclusion

/-- The sorted entry set `main` passes to the updater: the script's own
file name, the output file name, and the derived entry for each
exclusion. -/
def entriesToIgnore (outputName : String) (exclusions : List String) : List String :=
  sortStrings ((["project_structure.py", outputName]
    ++ exclusions.map ignoreEntryFor).dedup)

/-- Model of `main`.  `rootAbs` is the resolved absolute path of the root
argument; `root` is `some` of the root directory's tree when that path is a
directory and `none` otherwise; `rootName` is the displayed base name of
the root; `outputName` is the output-file argument; `extraExcl` the
user-supplied additional exclusions; `outputExists` whether the output file
already exists; `gitignore` the current ignore-file state.  The result is
the sequence of observable events of the run.  (Path-string manipulation -
`os.path.abspath`, `basename`, `join` - is outside the model; path strings
only appear inside messages.) -/
def mainRun (rootAbs : String) (root : Option FS) (rootName : String)
    (outputName : String) (extraExcl : List String) (outputExists : Bool)
    (gitignore : Option String) : List MainEvent :=
  match root with
  | none => [MainEvent.printed
      ("Error: The directory '" ++ rootAbs ++ "' does not exist.")]
  | some rootFS =>
      let exclusions := (common_exclusions ++ extraExcl).dedup
      let overwriteMsg := if outputExists then
          [MainEvent.printed
            ("Existing '" ++ outputName ++ "' found and will be overwritten.")]
        else []
      let outPath := rootAbs ++ "/" ++ outputName
      let treeEvents :=
        [MainEvent.wroteOutputFile (generate_ascii_tree exclusions [] rootName rootFS),
          MainEvent.printed
            ("ASCII project structure has been written to '" ++ outPath ++ "'.")]
      let r := manage_gitignore gitignore (entriesToIgnore outputName exclusions)
      let gitEvents := if r.2 = 0 then
          [MainEvent.printed
            "'.gitignore' already contains all specified entries. No changes made."]
        else
          [MainEvent.wroteGitignore ((r.1).getD ""),
            MainEvent.printed ("Added " ++ toString r.2 ++ " entries to '.gitignore'.")]
      overwriteMsg ++ treeEvents ++ gitEvents

/-- C8: when the requested root path is not a directory, `main` reports the
error and halts before any file write: the run's only observable event is
the printed error message, so no output file is created and the ignore
file is not modified. -/
theorem main_missing_root (rootAbs rootName outputName : String)
    (extraExcl : List String) (outputExists : Bool) (gitignore : Option String) :
    mainRun rootAbs none rootName outputName extraExcl outputExists gitignore
      = [MainEvent.printed
          ("Error: The directory '" ++ rootAbs ++ "' does not exist.")] := rfl
